import Mathlib

/-!
Verification development for the jup-ag swap pipeline.

This file gives a shallow embedding of the transaction-assembly pipeline:

* `src/address_tables.rs` — `LookupTable::deserialize` (bincode header decoding
  plus reinterpretation of the trailing bytes as packed 32-byte addresses) and
  `load_address_lookup_table` (batch fetch, best-effort decoding);
* `src/swap_types.rs` — `SetupInstruction::to_instruction`,
  `SwapInstruction::to_instruction` (all-or-nothing account resolution) and the
  instruction-list assembly of `SwapResponse::new_v0_transaction`;
* `src/swapper.rs` — `prio_fee` (the `spl_token::ui_amount_to_amount` f64
  conversion, modelled exactly over scaled integers) and the fixed arguments
  `Swapper::new_swap` passes down.

External crate functions with rich inputs (base58 pubkey parsing, base64
decoding) are abstracted as explicit function parameters; byte-level external
functions (bincode for `ProgramState`, bytemuck slice casting, the IEEE-754
double rounding used by `spl_token`) are modelled exactly.
-/

set_option maxRecDepth 100000

namespace JupAg

/-- Raw account data: a sequence of bytes (each intended to be `< 256`). -/
abbrev Bytes := List ℕ

/-- A 32-byte public key (`solana_sdk::pubkey::Pubkey`). -/
abbrev Pubkey := List ℕ

/-- Value of a little-endian byte sequence. -/
def leVal : Bytes → ℕ
  | [] => 0
  | b :: bs => b + 256 * leVal bs

/-- The `k` little-endian bytes of `n` (mod `256^k`). -/
def leBytes : ℕ → ℕ → Bytes
  | 0, _ => []
  | k + 1, n => n % 256 :: leBytes k (n / 256)

/-- Read exactly `k` bytes from the front of a stream; `none` if too short.
Models the way bincode pulls fixed-width fields off a byte slice. -/
def readN : ℕ → Bytes → Option (Bytes × Bytes)
  | 0, l => some ([], l)
  | _ + 1, [] => none
  | k + 1, b :: bs => (readN k bs).map fun p => (b :: p.1, p.2)

/-- Read a `k`-byte little-endian unsigned integer. -/
def readLE (k : ℕ) (l : Bytes) : Option (ℕ × Bytes) :=
  (readN k l).map fun p => (leVal p.1, p.2)

/-- `solana_sdk::address_lookup_table::state::LookupTableMeta`.  The source's
`_padding` field is called `padding` here. -/
structure LookupTableMeta where
  deactivation_slot : ℕ
  last_extended_slot : ℕ
  last_extended_slot_start_index : ℕ
  authority : Option Pubkey
  padding : ℕ
deriving Repr, DecidableEq

/-- `solana_sdk::address_lookup_table::state::ProgramState`. -/
inductive ProgramState
  | Uninitialized
  | LookupTable (meta : LookupTableMeta)
deriving Repr, DecidableEq

/-- bincode (fixed-int encoding) read of `Option<Pubkey>`: a one-byte tag
`0`/`1` followed, for `1`, by 32 key bytes. -/
def readOptPubkey : Bytes → Option (Option Pubkey × Bytes)
  | [] => none
  | 0 :: rest => some (none, rest)
  | 1 :: rest => (readN 32 rest).map fun p => (some p.1, p.2)
  | _ :: _ => none

/-- `bincode::deserialize::<ProgramState>`: a little-endian `u32` variant tag
(`0` = `Uninitialized`, `1` = `LookupTable`), then for variant `1` the
`LookupTableMeta` fields in order (`u64`, `u64`, `u8`, `Option<Pubkey>`,
`u16`).  Trailing bytes are ignored, as bincode's `deserialize` does. -/
def deserializeProgramState (d : Bytes) : Option ProgramState := do
  let (tag, r1) ← readLE 4 d
  match tag with
  | 0 => some .Uninitialized
  | 1 => do
    let (ds, r2) ← readLE 8 r1
    let (les, r3) ← readLE 8 r2
    let (idx, r4) ← readLE 1 r3
    let (auth, r5) ← readOptPubkey r4
    let (pad, _) ← readLE 2 r5
    some (.LookupTable ⟨ds, les, idx, auth, pad⟩)
  | _ => none

/-- The two `solana_sdk::instruction::InstructionError` variants produced by
`LookupTable::deserialize`. -/
inductive InstructionError
  | UninitializedAccount
  | InvalidAccountData
deriving Repr, DecidableEq

/-- `LOOKUP_TABLE_META_SIZE` from `solana_sdk`. -/
def LOOKUP_TABLE_META_SIZE : ℕ := 56

/-- The decoded table (`LookupTable` in `src/address_tables.rs`). -/
structure LookupTable where
  meta : LookupTableMeta
  addresses : List Pubkey
deriving Repr, DecidableEq

/-- Split a byte list into `k` consecutive 32-byte chunks. -/
def chunkN : ℕ → Bytes → List Pubkey
  | 0, _ => []
  | k + 1, l => l.take 32 :: chunkN k (l.drop 32)

/-- `bytemuck::try_cast_slice::<u8, Pubkey>`: succeeds exactly when the byte
length is a multiple of 32 (alignment of `Pubkey` is 1), reinterpreting the
bytes as packed 32-byte keys. -/
def castPubkeySlice (l : Bytes) : Option (List Pubkey) :=
  if l.length % 32 = 0 then some (chunkN (l.length / 32) l) else none

/-- `LookupTable::deserialize` (src/address_tables.rs lines 36–60):
bincode-decode the `ProgramState` header (failure → `InvalidAccountData`;
`Uninitialized` → `UninitializedAccount`), then take the bytes from offset
`LOOKUP_TABLE_META_SIZE` (absent → `InvalidAccountData`, mirroring
`data.get(56..)`), and cast them to packed 32-byte addresses (failure →
`InvalidAccountData`). -/
def LookupTable.deserialize (data : Bytes) : Except InstructionError LookupTable :=
  match deserializeProgramState data with
  | none => .error .InvalidAccountData
  | some .Uninitialized => .error .UninitializedAccount
  | some (.LookupTable meta) =>
    if LOOKUP_TABLE_META_SIZE ≤ data.length then
      match castPubkeySlice (data.drop LOOKUP_TABLE_META_SIZE) with
      | none => .error .InvalidAccountData
      | some addrs => .ok ⟨meta, addrs⟩
    else .error .InvalidAccountData

/-- bincode (fixed-int) serialization of `Option<Pubkey>`. -/
def serOptPubkey : Option Pubkey → Bytes
  | none => [0]
  | some pk => 1 :: pk

/-- The on-chain byte form of an active-table header: the bincode encoding of
`ProgramState::LookupTable(meta)`, zero-padded to the fixed
`LOOKUP_TABLE_META_SIZE` bytes the account layout reserves for metadata. -/
def serializeMeta (m : LookupTableMeta) : Bytes :=
  let core := leBytes 4 1 ++ leBytes 8 m.deactivation_slot ++
    leBytes 8 m.last_extended_slot ++ leBytes 1 m.last_extended_slot_start_index ++
    serOptPubkey m.authority ++ leBytes 2 m.padding
  core ++ List.replicate (LOOKUP_TABLE_META_SIZE - core.length) 0

/-- `solana_sdk::address_lookup_table_account::AddressLookupTableAccount`,
restricted to the fields the pipeline constructs. -/
structure AddressLookupTableAccount where
  key : Pubkey
  addresses : List Pubkey
deriving Repr, DecidableEq

/-- `load_address_lookup_table` (src/address_tables.rs lines 11–27).  The RPC
reply of `get_multiple_accounts` is modelled by `accounts`, one optional data
blob per requested address (the RPC contract makes it the same length as
`tables`); `tables[idx]` is modelled by `tables.getD idx []`, which agrees
under that contract.  Per slot: an absent account or a failed decode is
silently skipped; a success contributes `{key: tables[idx], addresses}`. -/
def load_address_lookup_table (tables : List Pubkey) (accounts : List (Option Bytes)) :
    List AddressLookupTableAccount :=
  accounts.enum.filterMap fun p =>
    match p.2 with
    | none => none
    | some d =>
      match LookupTable.deserialize d with
      | .ok lut => some ⟨tables.getD p.1 [], lut.addresses⟩
      | .error _ => none

/-- The `Account` entry of an instruction descriptor (src/swap_types.rs):
a string-encoded pubkey plus signer/writable flags. -/
structure Account where
  pubkey : String
  is_signer : Bool
  is_writable : Bool
deriving Repr, DecidableEq

/-- `solana_sdk::instruction::AccountMeta`. -/
structure AccountMeta where
  pubkey : Pubkey
  is_signer : Bool
  is_writable : Bool
deriving Repr, DecidableEq

/-- `AccountMeta::new`: writable reference. -/
def AccountMeta.new (pk : Pubkey) (signer : Bool) : AccountMeta := ⟨pk, signer, true⟩

/-- `AccountMeta::new_readonly`. -/
def AccountMeta.new_readonly (pk : Pubkey) (signer : Bool) : AccountMeta := ⟨pk, signer, false⟩

/-- `solana_sdk::instruction::Instruction`. -/
structure Instruction where
  program_id : Pubkey
  accounts : List AccountMeta
  data : Bytes
deriving Repr, DecidableEq

/-- `SetupInstruction` descriptor from the aggregator response. -/
structure SetupInstruction where
  program_id : String
  accounts : List Account
  data : String
deriving Repr, DecidableEq

/-- `SwapInstruction` descriptor from the aggregator response. -/
structure SwapInstruction where
  program_id : String
  accounts : List Account
  data : String
deriving Repr, DecidableEq

/-- The per-account closure inside both `to_instruction` bodies: parse the
string key (a failure drops the entry — `ok()?` inside `filter_map`), and
build a writable or read-only `AccountMeta` according to the declared flag. -/
def resolveAccount (parse : String → Option Pubkey) (acct : Account) :
    Option AccountMeta :=
  match parse acct.pubkey with
  | none => none
  | some pk =>
    some (if acct.is_writable then AccountMeta.new pk acct.is_signer
          else AccountMeta.new_readonly pk acct.is_signer)

/-- `SetupInstruction::to_instruction` (src/swap_types.rs lines 129–154).
`parse` stands for `Pubkey::from_str` (base58) and `b64decode` for
`base64::engine::…::STANDARD.decode`; both are abstracted since their inputs
are opaque strings here.  The base64 payload is decoded first (`?`), each
account is resolved inside a `filter_map` (see `resolveAccount`), the
resulting length is compared with the declared count, and finally the
program id is parsed (`?`). -/
def SetupInstruction.to_instruction (parse : String → Option Pubkey)
    (b64decode : String → Option Bytes) (s : SetupInstruction) :
    Except String Instruction :=
  match b64decode s.data with
  | none => .error "base64 decode failed"
  | some ix_data =>
    let expected_size := s.accounts.length
    let accounts : List AccountMeta := s.accounts.filterMap (resolveAccount parse)
    if accounts.length ≠ expected_size then .error "account parse failed"
    else
      match parse s.program_id with
      | none => .error "program id parse failed"
      | some pid => .ok ⟨pid, accounts, ix_data⟩

/-- `SwapInstruction::to_instruction` (src/swap_types.rs lines 158–183);
textually the same body as `SetupInstruction::to_instruction`. -/
def SwapInstruction.to_instruction (parse : String → Option Pubkey)
    (b64decode : String → Option Bytes) (s : SwapInstruction) :
    Except String Instruction :=
  match b64decode s.data with
  | none => .error "base64 decode failed"
  | some ix_data =>
    let expected_size := s.accounts.length
    let accounts : List AccountMeta := s.accounts.filterMap (resolveAccount parse)
    if accounts.length ≠ expected_size then .error "account parse failed"
    else
      match parse s.program_id with
      | none => .error "program id parse failed"
      | some pid => .ok ⟨pid, accounts, ix_data⟩

/-- The 32 bytes of `ComputeBudget111111111111111111111111111111`. -/
def computeBudgetProgramId : Pubkey :=
  [3, 6, 70, 111, 229, 33, 23, 50, 255, 236, 173, 186, 114, 195, 155, 231,
   188, 140, 229, 187, 197, 247, 18, 107, 44, 67, 155, 58, 64, 0, 0, 0]

/-- `ComputeBudgetInstruction::set_compute_unit_limit(u32)`: borsh variant
tag 2 followed by the little-endian `u32`, no accounts. -/
def set_compute_unit_limit (units : ℕ) : Instruction :=
  ⟨computeBudgetProgramId, [], 2 :: leBytes 4 units⟩

/-- `ComputeBudgetInstruction::set_compute_unit_price(u64)`: borsh variant
tag 3 followed by the little-endian `u64`, no accounts. -/
def set_compute_unit_price (micro_lamports : ℕ) : Instruction :=
  ⟨computeBudgetProgramId, [], 3 :: leBytes 8 micro_lamports⟩

/-- `SwapResponse`, restricted to the fields `new_v0_transaction` and
`address_lookup_tables` read (the unused JSON fields are omitted). -/
structure SwapResponse where
  setup_instructions : List SetupInstruction
  swap_instruction : SwapInstruction
  address_lookup_table_addresses : List String
deriving Repr, DecidableEq

/-- `SwapResponse::address_lookup_tables`: parse each address string,
silently dropping failures (`filter_map … ok()`). -/
def SwapResponse.address_lookup_tables (parse : String → Option Pubkey)
    (r : SwapResponse) : List Pubkey :=
  r.address_lookup_table_addresses.filterMap parse

/-- The instruction-list assembly of `SwapResponse::new_v0_transaction`
(src/swap_types.rs lines 94–115): push the priority-fee instruction if
requested, then the compute-unit-limit instruction if requested, then the
setup instructions that build (`filter_map … ok()` skips failures), then the
swap instruction, whose build failure propagates (`?`).  The cleanup
instruction is never constructed.  The subsequent RPC steps (lookup-table
loading, blockhash fetch, `Message::try_compile`) consume this list
unchanged and are outside this pure model. -/
def SwapResponse.build_instructions (parse : String → Option Pubkey)
    (b64decode : String → Option Bytes) (r : SwapResponse)
    (prio_fee : Option ℕ) (cu_limit : Option ℕ) :
    Except String (List Instruction) :=
  let pre_fee : List Instruction :=
    match prio_fee with
    | some fee => [set_compute_unit_price fee]
    | none => []
  let pre_limit : List Instruction :=
    match cu_limit with
    | some cl => [set_compute_unit_limit cl]
    | none => []
  let setup_ixs : List Instruction := r.setup_instructions.filterMap fun ix =>
    (ix.to_instruction parse b64decode).toOption
  match r.swap_instruction.to_instruction parse b64decode with
  | .error e => .error e
  | .ok sw => .ok (pre_fee ++ pre_limit ++ setup_ixs ++ [sw])

/-- Tail-recursive base-2 logarithm with explicit fuel (so that it reduces in
the kernel): `lg2a fuel n acc` is `acc + ⌊log₂ n⌋` for `n ≥ 1` when `fuel`
bounds the iteration count. -/
def lg2a : ℕ → ℕ → ℕ → ℕ
  | 0, _, acc => acc
  | fuel + 1, n, acc => if n ≥ 2 then lg2a fuel (n / 2) (acc + 1) else acc

/-- `⌊log₂ n⌋` (0 for `n = 0`), with fuel 2200 — enough for every scaled
value handled by `roundF64n`. -/
def lg2 (n : ℕ) : ℕ := lg2a 2200 n 0

/-- Round the fraction `a / b` (with `b > 0`) to the nearest integer, ties to
even — the IEEE-754 default rounding. -/
def rneN (a b : ℕ) : ℕ :=
  let d := a / b
  let r := a % b
  if 2 * r < b then d
  else if 2 * r > b then d + 1
  else if d % 2 = 0 then d else d + 1

/-- Fixed-point scale of the f64 model: every f64 value `v ≥ 0` is
represented by the natural number `v * 2^1074` (so the least subnormal is
`1`).  This makes the model exact for the whole nonnegative finite double
range. -/
def f64Scale : ℕ := 2 ^ 1074

/-- Round the nonnegative rational `a / b` (with `b > 0`) to the nearest
IEEE-754 double (round-to-nearest, ties-to-even), returned in the
`f64Scale` fixed-point representation.  Normal and subnormal ranges are
both exact; overflow to infinity (values `≥ 2^1024`) is not modelled, which
is irrelevant for the fee magnitudes at hand. -/
def roundF64n (a b : ℕ) : ℕ :=
  let n := a * f64Scale / b
  if n = 0 then 0
  else
    let e := lg2 n
    if e ≤ 52 then rneN (a * f64Scale) b
    else rneN (a * 2 ^ (1074 - (e - 52))) b * 2 ^ (e - 52)

/-- The Rust `x as u64` cast of a nonnegative f64 in the `f64Scale`
representation: truncation toward zero, saturating at `u64::MAX`. -/
def u64cast (x : ℕ) : ℕ := min (x / f64Scale) (2 ^ 64 - 1)

/-- `spl_token::ui_amount_to_amount(ui_amount, decimals)` =
`(ui_amount * 10_usize.pow(decimals) as f64) as u64`: the input double is
multiplied by `10^decimals` in f64 arithmetic (exact rounding of the exact
product — `10^decimals` is itself exactly representable for the `decimals`
used here) and the product is cast to `u64` by truncation.  `x` is the input
double in the `f64Scale` representation. -/
def ui_amount_to_amount (x : ℕ) (decimals : ℕ) : ℕ :=
  u64cast (roundF64n (x * 10 ^ decimals) f64Scale)

/-- `prio_fee` (src/swapper.rs lines 48–50):
`spl_token::ui_amount_to_amount(input, 9)`. -/
def prio_fee (x : ℕ) : ℕ := ui_amount_to_amount x 9

/-- The f64 literal `0.001` (Rust parses decimal literals to the nearest
double) in the `f64Scale` representation. -/
def lit_0_001 : ℕ := roundF64n 1 1000

/-- `solana_client::rpc_config::RpcSendTransactionConfig`, restricted to the
fields `Swapper::new_swap` sets. -/
structure RpcSendTransactionConfig where
  skip_preflight : Bool
  max_retries : Option ℕ
deriving Repr, DecidableEq

/-- The instruction list `Swapper::new_swap` (src/swapper.rs lines 21–41)
hands to message compilation: it always calls
`new_v0_transaction(…, Some(prio_fee(0.001)), Some(1_000_000))`, so the
caller's `skip_preflight` and `retries` arguments do not reach the
instruction list. -/
def new_swap_instructions (parse : String → Option Pubkey)
    (b64decode : String → Option Bytes) (r : SwapResponse)
    (skip_preflight : Bool) (retries : ℕ) : Except String (List Instruction) :=
  r.build_instructions parse b64decode (some (prio_fee lit_0_001)) (some 1000000)

/-- The send configuration `Swapper::new_swap` submits with:
`{skip_preflight, max_retries: Some(retries), ..Default::default()}`. -/
def new_swap_config (skip_preflight : Bool) (retries : ℕ) : RpcSendTransactionConfig :=
  ⟨skip_preflight, some retries⟩

theorem length_filterMap_lt {α β : Type} (f : α → Option β) {l : List α} {a : α}
    (ha : a ∈ l) (hf : f a = none) : (l.filterMap f).length < l.length := by
  induction l with
  | nil => cases ha
  | cons b bs ih =>
    rw [List.filterMap_cons]
    simp only [List.length_cons]
    rcases List.mem_cons.mp ha with rfl | hmem
    · rw [hf]
      exact Nat.lt_succ_of_le (List.length_filterMap_le f bs)
    · cases hfb : f b with
      | none => exact Nat.lt_succ_of_lt (ih hmem)
      | some c => simpa using Nat.succ_lt_succ (ih hmem)

theorem length_filterMap_of_forall_isSome {α β : Type} (f : α → Option β) {l : List α}
    (h : ∀ a ∈ l, (f a).isSome) : (l.filterMap f).length = l.length := by
  induction l with
  | nil => rfl
  | cons b bs ih =>
    obtain ⟨c, hc⟩ := Option.isSome_iff_exists.mp (h b (List.mem_cons_self b bs))
    rw [List.filterMap_cons, hc, List.length_cons, List.length_cons,
      ih fun a ha => h a (List.mem_cons_of_mem _ ha)]

theorem resolveAccount_eq_some (parse : String → Option Pubkey) {a : Account}
    {pk : Pubkey} (hpk : parse a.pubkey = some pk) :
    resolveAccount parse a = some ⟨pk, a.is_signer, a.is_writable⟩ := by
  unfold resolveAccount
  rw [hpk]
  cases hw : a.is_writable <;>
    simp [AccountMeta.new, AccountMeta.new_readonly]

theorem resolveAccount_map (parse : String → Option Pubkey) {l : List Account}
    (h : ∀ a ∈ l, (parse a.pubkey).isSome) :
    l.filterMap (resolveAccount parse) =
      l.map fun a => ⟨(parse a.pubkey).getD [], a.is_signer, a.is_writable⟩ := by
  induction l with
  | nil => rfl
  | cons b bs ih =>
    obtain ⟨pk, hpk⟩ := Option.isSome_iff_exists.mp (h b (List.mem_cons_self b bs))
    rw [List.filterMap_cons, resolveAccount_eq_some parse hpk, List.map_cons]
    simp only [hpk, Option.getD_some]
    rw [ih fun a ha => h a (List.mem_cons_of_mem _ ha)]

/-- **C1.** For every instruction descriptor declaring `K` accounts (this is
`s.accounts.length`), both `SetupInstruction::to_instruction` and
`SwapInstruction::to_instruction` return an error as soon as one account's
string-encoded pubkey fails to parse; and whenever they return an
instruction, its account list has exactly the declared `K` entries. -/
theorem to_instruction_all_or_nothing (parse : String → Option Pubkey)
    (b64decode : String → Option Bytes) (s : SetupInstruction) (w : SwapInstruction) :
    ((∃ a ∈ s.accounts, parse a.pubkey = none) →
      ∃ e, s.to_instruction parse b64decode = .error e) ∧
    (∀ ix, s.to_instruction parse b64decode = .ok ix →
      ix.accounts.length = s.accounts.length) ∧
    ((∃ a ∈ w.accounts, parse a.pubkey = none) →
      ∃ e, w.to_instruction parse b64decode = .error e) ∧
    (∀ ix, w.to_instruction parse b64decode = .ok ix →
      ix.accounts.length = w.accounts.length) := by
  refine ⟨?_, ?_, ?_, ?_⟩
  · rintro ⟨a, ha, hpa⟩
    rcases hbd : b64decode s.data with _ | bytes
    · exact ⟨"base64 decode failed", by simp [SetupInstruction.to_instruction, hbd]⟩
    · have hres : resolveAccount parse a = none := by
        unfold resolveAccount; rw [hpa]
      have hlt := length_filterMap_lt (resolveAccount parse) ha hres
      refine ⟨"account parse failed", ?_⟩
      simp only [SetupInstruction.to_instruction, hbd]
      rw [if_pos (Nat.ne_of_lt hlt)]
  · intro ix hok
    simp only [SetupInstruction.to_instruction] at hok
    rcases hbd : b64decode s.data with _ | bytes
    · rw [hbd] at hok
      cases hok
    · simp only [hbd] at hok
      by_cases hlen :
        (List.filterMap (resolveAccount parse) s.accounts).length ≠ s.accounts.length
      · rw [if_pos hlen] at hok
        cases hok
      · rw [if_neg hlen] at hok
        rcases hpid : parse s.program_id with _ | pid <;> rw [hpid] at hok
        · cases hok
        · cases hok
          simpa using not_ne_iff.mp hlen
  · rintro ⟨a, ha, hpa⟩
    rcases hbd : b64decode w.data with _ | bytes
    · exact ⟨"base64 decode failed", by simp [SwapInstruction.to_instruction, hbd]⟩
    · have hres : resolveAccount parse a = none := by
        unfold resolveAccount; rw [hpa]
      have hlt := length_filterMap_lt (resolveAccount parse) ha hres
      refine ⟨"account parse failed", ?_⟩
      simp only [SwapInstruction.to_instruction, hbd]
      rw [if_pos (Nat.ne_of_lt hlt)]
  · intro ix hok
    simp only [SwapInstruction.to_instruction] at hok
    rcases hbd : b64decode w.data with _ | bytes
    · rw [hbd] at hok
      cases hok
    · simp only [hbd] at hok
      by_cases hlen :
        (List.filterMap (resolveAccount parse) w.accounts).length ≠ w.accounts.length
      · rw [if_pos hlen] at hok
        cases hok
      · rw [if_neg hlen] at hok
        rcases hpid : parse w.program_id with _ | pid <;> rw [hpid] at hok
        · cases hok
        · cases hok
          simpa using not_ne_iff.mp hlen

theorem to_instruction_all_or_nothing_witness :
    (∃ e, SetupInstruction.to_instruction (fun _ => none) (fun _ => some [])
        ⟨"p", [⟨"k", false, false⟩], "d"⟩ = .error e) ∧
    (Instruction.mk [7] [⟨[7], false, false⟩] []).accounts.length =
      (SetupInstruction.mk "p" [⟨"k", false, false⟩] "d").accounts.length ∧
    (∃ e, SwapInstruction.to_instruction (fun _ => none) (fun _ => some [])
        ⟨"p", [⟨"k", false, false⟩], "d"⟩ = .error e) ∧
    (Instruction.mk [7] [⟨[7], false, false⟩] []).accounts.length =
      (SwapInstruction.mk "p" [⟨"k", false, false⟩] "d").accounts.length := by
  refine ⟨?_, ?_, ?_, ?_⟩
  · exact (to_instruction_all_or_nothing (fun _ => none) (fun _ => some [])
      ⟨"p", [⟨"k", false, false⟩], "d"⟩ ⟨"p", [], "d"⟩).1
      ⟨⟨"k", false, false⟩, by simp, rfl⟩
  · exact (to_instruction_all_or_nothing (fun _ => some [7]) (fun _ => some [])
      ⟨"p", [⟨"k", false, false⟩], "d"⟩ ⟨"p", [], "d"⟩).2.1
      ⟨[7], [⟨[7], false, false⟩], []⟩ rfl
  · exact (to_instruction_all_or_nothing (fun _ => none) (fun _ => some [])
      ⟨"p", [], "d"⟩ ⟨"p", [⟨"k", false, false⟩], "d"⟩).2.2.1
      ⟨⟨"k", false, false⟩, by simp, rfl⟩
  · exact (to_instruction_all_or_nothing (fun _ => some [7]) (fun _ => some [])
      ⟨"p", [], "d"⟩ ⟨"p", [⟨"k", false, false⟩], "d"⟩).2.2.2
      ⟨[7], [⟨[7], false, false⟩], []⟩ rfl

/-- **C7.** When the base64 payload decodes and the program id and every
account pubkey parse, `to_instruction` returns the instruction whose account
list preserves the declared order with the declared signer/writable flags and
whose data is the decoded payload; and a payload that fails base64 decoding
makes the build fail. -/
theorem to_instruction_success_shape (parse : String → Option Pubkey)
    (b64decode : String → Option Bytes) (s : SetupInstruction) :
    ((∀ a ∈ s.accounts, (parse a.pubkey).isSome) →
      ∀ bytes pid, b64decode s.data = some bytes → parse s.program_id = some pid →
        s.to_instruction parse b64decode =
          .ok ⟨pid,
              s.accounts.map fun a =>
                ⟨(parse a.pubkey).getD [], a.is_signer, a.is_writable⟩,
              bytes⟩) ∧
    (b64decode s.data = none → ∃ e, s.to_instruction parse b64decode = .error e) := by
  constructor
  · intro hall bytes pid hbd hpid
    simp only [SetupInstruction.to_instruction, hbd]
    rw [resolveAccount_map parse hall]
    rw [if_neg (by simp), hpid]
  · intro hbd
    exact ⟨"base64 decode failed", by simp [SetupInstruction.to_instruction, hbd]⟩

theorem to_instruction_success_shape_witness :
    SetupInstruction.to_instruction (fun _ => some [9]) (fun _ => some [1, 2])
        ⟨"p", [⟨"a", true, true⟩, ⟨"b", false, false⟩], "d"⟩ =
      .ok ⟨[9], [⟨[9], true, true⟩, ⟨[9], false, false⟩], [1, 2]⟩ ∧
    (∃ e, SetupInstruction.to_instruction (fun _ => some [9]) (fun _ => none)
        ⟨"p", [⟨"a", true, true⟩], "d"⟩ = .error e) := by
  constructor
  · exact (to_instruction_success_shape (fun _ => some [9]) (fun _ => some [1, 2])
      ⟨"p", [⟨"a", true, true⟩, ⟨"b", false, false⟩], "d"⟩).1
      (by intro a _; rfl) [1, 2] [9] rfl rfl
  · exact (to_instruction_success_shape (fun _ => some [9]) (fun _ => none)
      ⟨"p", [⟨"a", true, true⟩], "d"⟩).2 rfl

/-- **C2.** When both a priority fee and a compute-unit limit are requested
and the compile succeeds, the produced instruction list is exactly
[priority-fee, compute-unit-limit, built setup instructions in descriptor
order, swap] — a cleanup instruction is never part of it — so its length is
`2 + (number of setup instructions that build) + 1`; when every setup
instruction builds this is `2 + setup_count + 1`. -/
theorem build_instructions_order_and_length (parse : String → Option Pubkey)
    (b64decode : String → Option Bytes) (r : SwapResponse) (fee cl : ℕ)
    (l : List Instruction)
    (h : r.build_instructions parse b64decode (some fee) (some cl) = .ok l) :
    ∃ sw, r.swap_instruction.to_instruction parse b64decode = .ok sw ∧
      l = set_compute_unit_price fee :: set_compute_unit_limit cl ::
          (r.setup_instructions.filterMap fun ix =>
            (ix.to_instruction parse b64decode).toOption) ++ [sw] ∧
      l.length = 2 + (r.setup_instructions.filterMap fun ix =>
          (ix.to_instruction parse b64decode).toOption).length + 1 ∧
      ((∀ ix ∈ r.setup_instructions,
          ((ix.to_instruction parse b64decode).toOption).isSome) →
        l.length = 2 + r.setup_instructions.length + 1) := by
  simp only [SwapResponse.build_instructions] at h
  rcases hsw : r.swap_instruction.to_instruction parse b64decode with e | sw
  · rw [hsw] at h
    cases h
  · simp only [hsw] at h
    cases h
    refine ⟨sw, rfl, by simp, by simp; omega, ?_⟩
    intro hall
    have hlen := length_filterMap_of_forall_isSome
      (fun ix => (SetupInstruction.to_instruction parse b64decode ix).toOption) hall
    simp [hlen]
    omega

theorem build_instructions_order_and_length_witness :
    (∃ sw, SwapInstruction.to_instruction (fun _ => some [3]) (fun _ => some [7])
        ⟨"sw", [], "y"⟩ = .ok sw ∧
      ([set_compute_unit_price 5, set_compute_unit_limit 9,
          ⟨[3], [], [7]⟩, ⟨[3], [], [7]⟩] : List Instruction) =
        set_compute_unit_price 5 :: set_compute_unit_limit 9 ::
          (([⟨"s1", [], "x"⟩] : List SetupInstruction).filterMap fun ix =>
            (ix.to_instruction (fun _ => some [3]) (fun _ => some [7])).toOption) ++
          [sw] ∧
      ([set_compute_unit_price 5, set_compute_unit_limit 9,
          ⟨[3], [], [7]⟩, ⟨[3], [], [7]⟩] : List Instruction).length =
        2 + (([⟨"s1", [], "x"⟩] : List SetupInstruction).filterMap fun ix =>
            (ix.to_instruction (fun _ => some [3]) (fun _ => some [7])).toOption).length +
          1 ∧
      ((∀ ix ∈ ([⟨"s1", [], "x"⟩] : List SetupInstruction),
          ((ix.to_instruction (fun _ => some [3]) (fun _ => some [7])).toOption).isSome) →
        ([set_compute_unit_price 5, set_compute_unit_limit 9,
            ⟨[3], [], [7]⟩, ⟨[3], [], [7]⟩] : List Instruction).length =
          2 + ([⟨"s1", [], "x"⟩] : List SetupInstruction).length + 1)) ∧
    ([set_compute_unit_price 5, set_compute_unit_limit 9,
        ⟨[3], [], [7]⟩, ⟨[3], [], [7]⟩] : List Instruction).length = 2 + 1 + 1 := by
  have h := build_instructions_order_and_length (fun _ => some [3]) (fun _ => some [7])
    ⟨[⟨"s1", [], "x"⟩], ⟨"sw", [], "y"⟩, []⟩ 5 9
    [set_compute_unit_price 5, set_compute_unit_limit 9, ⟨[3], [], [7]⟩, ⟨[3], [], [7]⟩]
    rfl
  obtain ⟨sw, h1, h2, h3, h4⟩ := h
  refine ⟨⟨sw, h1, h2, h3, h4⟩, h4 ?_⟩
  intro ix hix
  have hx := List.mem_singleton.mp hix
  subst hx
  rfl

/-- **C8.** In the instruction assembly of `new_v0_transaction`, a setup
instruction that fails to build is simply skipped (the compile continues and
still succeeds, producing the built subset), while a swap instruction that
fails to build makes the whole assembly return exactly that error. -/
theorem build_instructions_error_policy (parse : String → Option Pubkey)
    (b64decode : String → Option Bytes) (r : SwapResponse)
    (p c : Option ℕ) :
    (∀ e, r.swap_instruction.to_instruction parse b64decode = .error e →
      r.build_instructions parse b64decode p c = .error e) ∧
    (∀ sw, r.swap_instruction.to_instruction parse b64decode = .ok sw →
      r.build_instructions parse b64decode p c =
        .ok ((match p with
              | some fee => [set_compute_unit_price fee]
              | none => []) ++
             (match c with
              | some cl => [set_compute_unit_limit cl]
              | none => []) ++
             (r.setup_instructions.filterMap fun ix =>
               (ix.to_instruction parse b64decode).toOption) ++ [sw])) := by
  constructor
  · intro e he
    simp only [SwapResponse.build_instructions, he]
  · intro sw hsw
    simp only [SwapResponse.build_instructions, hsw]

theorem build_instructions_error_policy_witness :
    SwapResponse.build_instructions (fun t => if t = "bad" then none else some [4])
        (fun _ => some []) ⟨[⟨"p", [⟨"bad", false, false⟩], "d"⟩], ⟨"p", [], "d"⟩, []⟩
        none (some 11) =
      .ok ([] ++ [set_compute_unit_limit 11] ++ [] ++ [⟨[4], [], []⟩]) ∧
    SwapResponse.build_instructions (fun _ => some [4]) (fun _ => none)
        ⟨[], ⟨"p", [], "d"⟩, []⟩ none none =
      .error "base64 decode failed" := by
  constructor
  · exact (build_instructions_error_policy (fun t => if t = "bad" then none else some [4])
      (fun _ => some []) ⟨[⟨"p", [⟨"bad", false, false⟩], "d"⟩], ⟨"p", [], "d"⟩, []⟩
      none (some 11)).2 ⟨[4], [], []⟩ rfl
  · exact (build_instructions_error_policy (fun _ => some [4]) (fun _ => none)
      ⟨[], ⟨"p", [], "d"⟩, []⟩ none none).1 "base64 decode failed" rfl

/-- **C4.** A byte sequence whose header deserializes to the uninitialized
program-state variant always fails `LookupTable::deserialize` with
`UninitializedAccount`; in particular a zero `u32` tag followed by arbitrary
trailing bytes does. -/
theorem deserialize_uninitialized (d rest : Bytes)
    (h : deserializeProgramState d = some .Uninitialized) :
    LookupTable.deserialize d = .error .UninitializedAccount ∧
    LookupTable.deserialize (0 :: 0 :: 0 :: 0 :: rest) = .error .UninitializedAccount := by
  constructor
  · simp [LookupTable.deserialize, h]
  · have h4 : deserializeProgramState (0 :: 0 :: 0 :: 0 :: rest) = some .Uninitialized := rfl
    simp [LookupTable.deserialize, h4]

theorem deserialize_uninitialized_witness :
    LookupTable.deserialize [0, 0, 0, 0] = .error .UninitializedAccount ∧
    LookupTable.deserialize (0 :: 0 :: 0 :: 0 :: [5]) = .error .UninitializedAccount :=
  deserialize_uninitialized [0, 0, 0, 0] [5] rfl

/-- **C5.** `LookupTable::deserialize` fails with `InvalidAccountData` both
when the metadata header fails to deserialize and when the header is an
active table but the trailing region (the bytes after the fixed-size header)
is not a whole number of 32-byte addresses. -/
theorem deserialize_invalid (d : Bytes) (m : LookupTableMeta) :
    (deserializeProgramState d = none →
      LookupTable.deserialize d = .error .InvalidAccountData) ∧
    (deserializeProgramState d = some (.LookupTable m) →
      (d.drop LOOKUP_TABLE_META_SIZE).length % 32 ≠ 0 →
      LookupTable.deserialize d = .error .InvalidAccountData) := by
  constructor
  · intro h
    simp [LookupTable.deserialize, h]
  · intro h hlen
    simp only [LookupTable.deserialize, h]
    by_cases h56 : LOOKUP_TABLE_META_SIZE ≤ d.length
    · rw [if_pos h56]
      have hc : castPubkeySlice (d.drop LOOKUP_TABLE_META_SIZE) = none := by
        simp only [castPubkeySlice]
        rw [if_neg hlen]
      rw [hc]
    · rw [if_neg h56]

theorem deserialize_invalid_witness :
    LookupTable.deserialize [] = .error .InvalidAccountData ∧
    LookupTable.deserialize (serializeMeta ⟨0, 0, 0, none, 0⟩ ++ [7]) =
      .error .InvalidAccountData :=
  ⟨(deserialize_invalid [] ⟨0, 0, 0, none, 0⟩).1 rfl,
   (deserialize_invalid (serializeMeta ⟨0, 0, 0, none, 0⟩ ++ [7]) ⟨0, 0, 0, none, 0⟩).2
     (by decide) (by decide)⟩

theorem leBytes_length (k n : ℕ) : (leBytes k n).length = k := by
  induction k generalizing n with
  | zero => rfl
  | succ k ih => simp [leBytes, ih]

theorem readN_exact (xs r : Bytes) : readN xs.length (xs ++ r) = some (xs, r) := by
  induction xs with
  | nil => rfl
  | cons b bs ih => simp [readN, ih]

theorem leVal_leBytes {k n : ℕ} (h : n < 256 ^ k) : leVal (leBytes k n) = n := by
  induction k generalizing n with
  | zero =>
    simp only [pow_zero, Nat.lt_one_iff] at h
    simp [h, leBytes, leVal]
  | succ k ih =>
    have hd : n / 256 < 256 ^ k := by
      rw [Nat.div_lt_iff_lt_mul (by norm_num)]
      calc n < 256 ^ (k + 1) := h
        _ = 256 ^ k * 256 := by ring
    simp only [leBytes, leVal, ih hd]
    omega

theorem readLE_leBytes (k n : ℕ) (r : Bytes) (h : n < 256 ^ k) :
    readLE k (leBytes k n ++ r) = some (n, r) := by
  have hn := readN_exact (leBytes k n) r
  rw [leBytes_length] at hn
  simp [readLE, hn, leVal_leBytes h]

theorem readOptPubkey_some (pk : Pubkey) (r : Bytes) (h : pk.length = 32) :
    readOptPubkey (serOptPubkey (some pk) ++ r) = some (some pk, r) := by
  have hn := readN_exact pk r
  rw [h] at hn
  simp [serOptPubkey, readOptPubkey, hn]

theorem deserializeProgramState_serializeMeta (m : LookupTableMeta) (r : Bytes)
    (h1 : m.deactivation_slot < 256 ^ 8) (h2 : m.last_extended_slot < 256 ^ 8)
    (h3 : m.last_extended_slot_start_index < 256) (h4 : m.padding < 256 ^ 2)
    (h5 : ∀ pk, m.authority = some pk → pk.length = 32) :
    deserializeProgramState (serializeMeta m ++ r) = some (.LookupTable m) := by
  obtain ⟨ds, les, idx, auth, pad⟩ := m
  simp only at h1 h2 h3 h4 h5
  cases auth with
  | none =>
    have hshape : serializeMeta ⟨ds, les, idx, none, pad⟩ ++ r =
        leBytes 4 1 ++ (leBytes 8 ds ++ (leBytes 8 les ++ (leBytes 1 idx ++
          (serOptPubkey none ++ (leBytes 2 pad ++ (List.replicate 32 0 ++ r)))))) := by
      simp [serializeMeta, serOptPubkey, leBytes_length, LOOKUP_TABLE_META_SIZE]
    rw [hshape]
    simp only [deserializeProgramState, readLE_leBytes 4 1 _ (by norm_num),
      readLE_leBytes 8 ds _ h1, readLE_leBytes 8 les _ h2,
      readLE_leBytes 1 idx _ (by simpa using h3), serOptPubkey,
      List.singleton_append, readOptPubkey,
      readLE_leBytes 2 pad _ h4, Option.bind_eq_bind, Option.some_bind]
  | some pk =>
    have hpk : pk.length = 32 := h5 pk rfl
    have hshape : serializeMeta ⟨ds, les, idx, some pk, pad⟩ ++ r =
        leBytes 4 1 ++ (leBytes 8 ds ++ (leBytes 8 les ++ (leBytes 1 idx ++
          (serOptPubkey (some pk) ++ (leBytes 2 pad ++ r))))) := by
      simp [serializeMeta, serOptPubkey, leBytes_length, LOOKUP_TABLE_META_SIZE, hpk]
    rw [hshape]
    simp only [deserializeProgramState, readLE_leBytes 4 1 _ (by norm_num),
      readLE_leBytes 8 ds _ h1, readLE_leBytes 8 les _ h2,
      readLE_leBytes 1 idx _ (by simpa using h3), readOptPubkey_some pk _ hpk,
      readLE_leBytes 2 pad _ h4, Option.bind_eq_bind, Option.some_bind]

theorem serializeMeta_length (m : LookupTableMeta)
    (h5 : ∀ pk, m.authority = some pk → pk.length = 32) :
    (serializeMeta m).length = LOOKUP_TABLE_META_SIZE := by
  obtain ⟨ds, les, idx, auth, pad⟩ := m
  cases auth with
  | none => simp [serializeMeta, serOptPubkey, leBytes_length, LOOKUP_TABLE_META_SIZE]
  | some pk =>
    have hpk : pk.length = 32 := h5 pk rfl
    simp [serializeMeta, serOptPubkey, leBytes_length, LOOKUP_TABLE_META_SIZE, hpk]

theorem flatten_length_32 {addrs : List Pubkey} (h : ∀ a ∈ addrs, a.length = 32) :
    addrs.flatten.length = 32 * addrs.length := by
  induction addrs with
  | nil => rfl
  | cons a as ih =>
    have ha : a.length = 32 := h a (List.mem_cons_self a as)
    simp only [List.flatten_cons, List.length_append, List.length_cons, ha,
      ih fun b hb => h b (List.mem_cons_of_mem _ hb)]
    ring

theorem chunkN_flatten {addrs : List Pubkey} (h : ∀ a ∈ addrs, a.length = 32) :
    chunkN addrs.length addrs.flatten = addrs := by
  induction addrs with
  | nil => rfl
  | cons a as ih =>
    have ha : a.length = 32 := h a (List.mem_cons_self a as)
    have htake : (a ++ as.flatten).take 32 = a := by
      rw [← ha]
      exact List.take_left a as.flatten
    have hdrop : (a ++ as.flatten).drop 32 = as.flatten := by
      rw [← ha]
      exact List.drop_left a as.flatten
    simp only [List.flatten_cons, List.length_cons, chunkN, htake, hdrop,
      ih fun b hb => h b (List.mem_cons_of_mem _ hb)]

theorem castPubkeySlice_flatten {addrs : List Pubkey}
    (h : ∀ a ∈ addrs, a.length = 32) :
    castPubkeySlice addrs.flatten = some addrs := by
  have hl := flatten_length_32 h
  have h0 : (32 * addrs.length) % 32 = 0 := by omega
  have hq : 32 * addrs.length / 32 = addrs.length := by omega
  rw [castPubkeySlice, hl, if_pos h0, hq, chunkN_flatten h]

/-- **C6.** For every valid account byte layout — a well-formed active-table
header (fields within their integer ranges, the authority key 32 bytes when
present) followed by `N` packed 32-byte addresses, `N ≥ 0` —
`LookupTable::deserialize` succeeds and returns exactly those `N` addresses
in their stored order: serialization followed by decoding round-trips both
the metadata and the address list. -/
theorem deserialize_roundtrip (m : LookupTableMeta) (addrs : List Pubkey)
    (h1 : m.deactivation_slot < 256 ^ 8) (h2 : m.last_extended_slot < 256 ^ 8)
    (h3 : m.last_extended_slot_start_index < 256) (h4 : m.padding < 256 ^ 2)
    (h5 : ∀ pk, m.authority = some pk → pk.length = 32)
    (h6 : ∀ a ∈ addrs, a.length = 32) :
    LookupTable.deserialize (serializeMeta m ++ addrs.flatten) = .ok ⟨m, addrs⟩ := by
  have hps := deserializeProgramState_serializeMeta m addrs.flatten h1 h2 h3 h4 h5
  have hml := serializeMeta_length m h5
  have hdrop : (serializeMeta m ++ addrs.flatten).drop LOOKUP_TABLE_META_SIZE =
      addrs.flatten := by
    rw [← hml]
    exact List.drop_left (serializeMeta m) addrs.flatten
  have h56 : LOOKUP_TABLE_META_SIZE ≤ (serializeMeta m ++ addrs.flatten).length := by
    rw [List.length_append, hml]
    omega
  simp only [LookupTable.deserialize, hps, if_pos h56, hdrop,
    castPubkeySlice_flatten h6]

theorem deserialize_roundtrip_witness :
    LookupTable.deserialize
        (serializeMeta ⟨1, 2, 3, some (List.replicate 32 9), 4⟩ ++
          List.flatten [List.replicate 32 5]) =
      .ok ⟨⟨1, 2, 3, some (List.replicate 32 9), 4⟩, [List.replicate 32 5]⟩ :=
  deserialize_roundtrip ⟨1, 2, 3, some (List.replicate 32 9), 4⟩
    [List.replicate 32 5] (by norm_num) (by norm_num) (by norm_num) (by norm_num)
    (by intro pk h; cases h; simp) (by intro a ha; cases List.mem_singleton.mp ha; simp)

/-- Recursive restatement of `load_address_lookup_table` with an explicit
running index, used to reason about the enumerate-based definition. -/
def loadAux (tables : List Pubkey) (i : ℕ) :
    List (Option Bytes) → List AddressLookupTableAccount
  | [] => []
  | a :: as =>
    match a with
    | none => loadAux tables (i + 1) as
    | some d =>
      match LookupTable.deserialize d with
      | .ok lut => ⟨tables.getD i [], lut.addresses⟩ :: loadAux tables (i + 1) as
      | .error _ => loadAux tables (i + 1) as

theorem loadAux_enumFrom (tables : List Pubkey) (accounts : List (Option Bytes)) :
    ∀ n, ((accounts.enumFrom n).filterMap fun p =>
      match p.2 with
      | none => none
      | some d =>
        match LookupTable.deserialize d with
        | .ok lut => some ⟨tables.getD p.1 [], lut.addresses⟩
        | .error _ => none) = loadAux tables n accounts := by
  induction accounts with
  | nil => intro n; rfl
  | cons a as ih =>
    intro n
    show ((n, a) :: as.enumFrom (n + 1)).filterMap _ = _
    rw [List.filterMap_cons]
    cases a with
    | none =>
      simp only [loadAux]
      exact ih (n + 1)
    | some d =>
      simp only [loadAux]
      cases hd : LookupTable.deserialize d with
      | ok lut =>
        simp only [hd]
        rw [ih (n + 1)]
      | error e =>
        simp only [hd]
        exact ih (n + 1)

theorem load_eq_loadAux (tables : List Pubkey) (accounts : List (Option Bytes)) :
    load_address_lookup_table tables accounts = loadAux tables 0 accounts :=
  loadAux_enumFrom tables accounts 0

theorem loadAux_length (tables : List Pubkey) :
    ∀ (accounts : List (Option Bytes)) (n : ℕ),
    (loadAux tables n accounts).length = accounts.countP fun a =>
      (a.bind fun d => (LookupTable.deserialize d).toOption).isSome := by
  intro accounts
  induction accounts with
  | nil => intro n; rfl
  | cons a as ih =>
    intro n
    rw [List.countP_cons]
    cases a with
    | none => simp [loadAux, ih (n + 1)]
    | some d =>
      cases hd : LookupTable.deserialize d with
      | ok lut => simp [loadAux, hd, ih (n + 1), Except.toOption]
      | error e => simp [loadAux, hd, ih (n + 1), Except.toOption]

theorem loadAux_mem_of_getElem (tables : List Pubkey) :
    ∀ (accounts : List (Option Bytes)) (n i : ℕ) (d : Bytes) (lut : LookupTable),
    accounts[i]? = some (some d) → LookupTable.deserialize d = .ok lut →
    (⟨tables.getD (n + i) [], lut.addresses⟩ : AddressLookupTableAccount) ∈
      loadAux tables n accounts := by
  intro accounts
  induction accounts with
  | nil => intro n i d lut h _; simp at h
  | cons a as ih =>
    intro n i d lut h hd
    cases i with
    | zero =>
      simp only [List.getElem?_cons_zero, Option.some_inj] at h
      subst h
      simp only [Nat.add_zero, loadAux, hd, List.mem_cons]
      left
      trivial
    | succ i =>
      simp only [List.getElem?_cons_succ] at h
      have hmem := ih (n + 1) i d lut h hd
      have harith : n + 1 + i = n + (i + 1) := by omega
      rw [harith] at hmem
      cases a with
      | none =>
        simp only [loadAux]
        exact hmem
      | some d₂ =>
        cases hd₂ : LookupTable.deserialize d₂ with
        | ok lut₂ =>
          simp only [loadAux, hd₂, List.mem_cons]
          exact Or.inr hmem
        | error e =>
          simp only [loadAux, hd₂]
          exact hmem

theorem loadAux_mem_inv (tables : List Pubkey) :
    ∀ (accounts : List (Option Bytes)) (n : ℕ) (x : AddressLookupTableAccount),
    x ∈ loadAux tables n accounts → ∃ i d lut,
      accounts[i]? = some (some d) ∧ LookupTable.deserialize d = .ok lut ∧
      x = ⟨tables.getD (n + i) [], lut.addresses⟩ := by
  intro accounts
  induction accounts with
  | nil => intro n x hx; simp [loadAux] at hx
  | cons a as ih =>
    intro n x hx
    cases a with
    | none =>
      obtain ⟨i, d, lut, h1, h2, h3⟩ := ih (n + 1) x (by simpa [loadAux] using hx)
      refine ⟨i + 1, d, lut, by simpa using h1, h2, ?_⟩
      rw [h3, show n + 1 + i = n + (i + 1) from by omega]
    | some d₀ =>
      cases hd₀ : LookupTable.deserialize d₀ with
      | ok lut₀ =>
        rw [loadAux] at hx
        simp only [hd₀] at hx
        rcases List.mem_cons.mp hx with rfl | hmem
        · exact ⟨0, d₀, lut₀, by simp, hd₀, by simp⟩
        · obtain ⟨i, d, lut, h1, h2, h3⟩ := ih (n + 1) x hmem
          refine ⟨i + 1, d, lut, by simpa using h1, h2, ?_⟩
          rw [h3, show n + 1 + i = n + (i + 1) from by omega]
      | error e =>
        rw [loadAux] at hx
        simp only [hd₀] at hx
        obtain ⟨i, d, lut, h1, h2, h3⟩ := ih (n + 1) x hx
        refine ⟨i + 1, d, lut, by simpa using h1, h2, ?_⟩
        rw [h3, show n + 1 + i = n + (i + 1) from by omega]

/-- **C3.** `load_address_lookup_table` over `N` addresses whose fetched
slots decode successfully in exactly `M` positions returns exactly `M`
tables (its type is a plain list — failing slots are skipped, never turned
into an error), and every returned table is keyed by the address at the same
index of the *input* list as the slot it was decoded from — never by an
address from the decoded table's own contents. -/
theorem load_tables_successes (tables : List Pubkey)
    (accounts : List (Option Bytes)) (hlen : accounts.length = tables.length) :
    (load_address_lookup_table tables accounts).length =
      (accounts.countP fun a =>
        (a.bind fun d => (LookupTable.deserialize d).toOption).isSome) ∧
    (∀ i d lut, accounts[i]? = some (some d) →
      LookupTable.deserialize d = .ok lut →
      (⟨tables.getD i [], lut.addresses⟩ : AddressLookupTableAccount) ∈
        load_address_lookup_table tables accounts) ∧
    (∀ x ∈ load_address_lookup_table tables accounts, ∃ i d lut,
      accounts[i]? = some (some d) ∧ LookupTable.deserialize d = .ok lut ∧
      x = ⟨tables.getD i [], lut.addresses⟩) := by
  rw [load_eq_loadAux]
  refine ⟨loadAux_length tables accounts 0, ?_, ?_⟩
  · intro i d lut h1 h2
    simpa using loadAux_mem_of_getElem tables accounts 0 i d lut h1 h2
  · intro x hx
    obtain ⟨i, d, lut, h1, h2, h3⟩ := loadAux_mem_inv tables accounts 0 x hx
    exact ⟨i, d, lut, h1, h2, by simpa using h3⟩

theorem load_tables_successes_witness :
    (load_address_lookup_table [[1], [2]]
        [some (serializeMeta ⟨0, 0, 0, none, 0⟩), none]).length =
      ([some (serializeMeta ⟨0, 0, 0, none, 0⟩), none].countP fun a =>
        (a.bind fun d => (LookupTable.deserialize d).toOption).isSome) ∧
    (⟨[1], []⟩ : AddressLookupTableAccount) ∈
      load_address_lookup_table [[1], [2]]
        [some (serializeMeta ⟨0, 0, 0, none, 0⟩), none] ∧
    (∃ i d lut,
      ([some (serializeMeta ⟨0, 0, 0, none, 0⟩), none] : List (Option Bytes))[i]? =
          some (some d) ∧
        LookupTable.deserialize d = .ok lut ∧
        (⟨[1], []⟩ : AddressLookupTableAccount) =
          ⟨([[1], [2]] : List Pubkey).getD i [], lut.addresses⟩) := by
  have h := load_tables_successes [[1], [2]]
    [some (serializeMeta ⟨0, 0, 0, none, 0⟩), none] rfl
  refine ⟨h.1, ?_, ?_⟩
  · exact h.2.1 0 (serializeMeta ⟨0, 0, 0, none, 0⟩) ⟨⟨0, 0, 0, none, 0⟩, []⟩
      rfl rfl
  · exact h.2.2 ⟨[1], []⟩
      (h.2.1 0 (serializeMeta ⟨0, 0, 0, none, 0⟩) ⟨⟨0, 0, 0, none, 0⟩, []⟩
        rfl rfl)

/-- **C9, counterexample.** The claim `minimal_units = round(fee_rate * 10^9)`
fails at the fee rate `2.7e-9` (the double nearest `27 / 10^10`):
`round(2.7e-9 * 10^9) = round(2.7) = 3` — witnessed here by `|2.7 - 3| < 1/2`,
which pins the nearest integer — yet `prio_fee` returns `2`, because the
`as u64` cast in `spl_token::ui_amount_to_amount` truncates the f64 product
toward zero instead of rounding. -/
theorem prio_fee_round_counterexample :
    prio_fee (roundF64n 27 (10 ^ 10)) = 2 ∧
    |(27 : ℚ) / 10 ^ 10 * 10 ^ 9 - 3| < 1 / 2 := by
  constructor
  · decide
  · rw [abs_sub_lt_iff]
    constructor <;> norm_num

/-- **C9, amended.** The priority-fee conversion maps the decimal fee rate to
minimal units by *truncating* (not rounding) the f64 product
`fee_rate * 10^9` toward zero: below the `u64` saturation bound, `prio_fee x`
is the integer `⌊p⌋` for the f64 product `p` (the two inequalities here pin
it); in particular a rate of `0.001` still converts to exactly `1_000_000`
minimal units. -/
theorem prio_fee_truncates (x : ℕ)
    (h0 : roundF64n (x * 10 ^ 9) f64Scale < 2 ^ 64 * f64Scale) :
    ((prio_fee x : ℚ) ≤ (roundF64n (x * 10 ^ 9) f64Scale : ℚ) / (f64Scale : ℚ)) ∧
    ((roundF64n (x * 10 ^ 9) f64Scale : ℚ) / (f64Scale : ℚ) - 1 < (prio_fee x : ℚ)) ∧
    prio_fee lit_0_001 = 1000000 := by
  have hS : 0 < f64Scale := by
    rw [f64Scale]
    positivity
  have hSQ : (0 : ℚ) < (f64Scale : ℚ) := by exact_mod_cast hS
  set y := roundF64n (x * 10 ^ 9) f64Scale with hy
  have hdiv : y / f64Scale < 2 ^ 64 := by
    rw [Nat.div_lt_iff_lt_mul hS]
    exact h0
  have hval : prio_fee x = y / f64Scale := by
    rw [prio_fee, ui_amount_to_amount, u64cast, ← hy]
    omega
  refine ⟨?_, ?_, by decide⟩
  · rw [hval]
    exact Nat.cast_div_le
  · rw [hval]
    have hlt : y < f64Scale * (y / f64Scale) + f64Scale := by
      have hm := Nat.div_add_mod y f64Scale
      have hr : y % f64Scale < f64Scale := Nat.mod_lt y hS
      omega
    have hltQ : (y : ℚ) < (f64Scale : ℚ) * ((y / f64Scale : ℕ) : ℚ) + (f64Scale : ℚ) := by
      exact_mod_cast hlt
    rw [sub_lt_iff_lt_add, div_lt_iff hSQ]
    calc (y : ℚ) < (f64Scale : ℚ) * ((y / f64Scale : ℕ) : ℚ) + (f64Scale : ℚ) := hltQ
      _ = (((y / f64Scale : ℕ) : ℚ) + 1) * (f64Scale : ℚ) := by ring

theorem prio_fee_truncates_witness :
    ((prio_fee lit_0_001 : ℚ) ≤
      (roundF64n (lit_0_001 * 10 ^ 9) f64Scale : ℚ) / (f64Scale : ℚ)) ∧
    ((roundF64n (lit_0_001 * 10 ^ 9) f64Scale : ℚ) / (f64Scale : ℚ) - 1 <
      (prio_fee lit_0_001 : ℚ)) ∧
    prio_fee lit_0_001 = 1000000 :=
  prio_fee_truncates lit_0_001 (by decide)

/-- **C10.** The instruction list `Swapper::new_swap` compiles is independent
of the caller's `skip_preflight` and `retries` arguments; it always requests
a compute-unit price of `1_000_000` minimal units (the hardcoded rate `0.001`
through `prio_fee`) and a compute-unit limit of `1_000_000`, in the first two
positions whenever compilation of the list succeeds; the caller's two
arguments reach only the send configuration. -/
theorem new_swap_fixed_budget (parse : String → Option Pubkey)
    (b64decode : String → Option Bytes) (r : SwapResponse)
    (sp sp' : Bool) (rt rt' : ℕ) (l : List Instruction) :
    new_swap_instructions parse b64decode r sp rt =
      new_swap_instructions parse b64decode r sp' rt' ∧
    new_swap_instructions parse b64decode r sp rt =
      r.build_instructions parse b64decode (some 1000000) (some 1000000) ∧
    (new_swap_instructions parse b64decode r sp rt = .ok l →
      l.take 2 = [set_compute_unit_price 1000000, set_compute_unit_limit 1000000]) ∧
    new_swap_config sp rt = ⟨sp, some rt⟩ := by
  have hfee : prio_fee lit_0_001 = 1000000 := by decide
  refine ⟨rfl, ?_, ?_, rfl⟩
  · simp only [new_swap_instructions, hfee]
  · intro h
    simp only [new_swap_instructions, SwapResponse.build_instructions] at h
    rcases hsw : SwapInstruction.to_instruction parse b64decode r.swap_instruction
      with e | sw
    · rw [hsw] at h
      cases h
    · simp only [hsw] at h
      cases h
      simp [hfee]

theorem new_swap_fixed_budget_witness :
    new_swap_instructions (fun _ => some [3]) (fun _ => some [7])
        ⟨[], ⟨"sw", [], "y"⟩, []⟩ true 1 =
      new_swap_instructions (fun _ => some [3]) (fun _ => some [7])
        ⟨[], ⟨"sw", [], "y"⟩, []⟩ false 2 ∧
    new_swap_instructions (fun _ => some [3]) (fun _ => some [7])
        ⟨[], ⟨"sw", [], "y"⟩, []⟩ true 1 =
      SwapResponse.build_instructions (fun _ => some [3]) (fun _ => some [7])
        ⟨[], ⟨"sw", [], "y"⟩, []⟩ (some 1000000) (some 1000000) ∧
    ([set_compute_unit_price 1000000, set_compute_unit_limit 1000000,
        ⟨[3], [], [7]⟩] : List Instruction).take 2 =
      [set_compute_unit_price 1000000, set_compute_unit_limit 1000000] ∧
    new_swap_config true 1 = ⟨true, some 1⟩ := by
  obtain ⟨h1, h2, h3, h4⟩ := new_swap_fixed_budget (fun _ => some [3])
    (fun _ => some [7]) ⟨[], ⟨"sw", [], "y"⟩, []⟩ true false 1 2
    [set_compute_unit_price 1000000, set_compute_unit_limit 1000000, ⟨[3], [], [7]⟩]
  exact ⟨h1, h2, h3 (by rfl), h4⟩

end JupAg
